import Mathlib

/-!
Verification of the Shamir secret-sharing core of the `rust_mpc` repository.

The Rust sources of interest are `src/util/polynomials.rs`,
`src/util/shamir.rs` and `src/services/SecretService.rs`.  They are shallowly
embedded below:

* `BigDecimal` values are modelled as `ℤ`.  Every `BigDecimal` the system
  ever builds outside of `ShamirAlgorithm::fromValues` is integer-valued: the
  parsed secret, the random `u128` coefficients, the coordinates from
  `gen_range(1..255)`, and all sums/products of these.  `BigDecimal` equality
  and display agree with `ℤ` equality and display on such values.  The sole
  place a true division occurs is inside `fromValues`; its interior is
  modelled with rational coefficients (`PolyQ` below, an instantiation of the
  same polynomial routines at `ℚ`), and — as proved below — `fromValues`
  fails on every input before returning, so the rounding that `BigDecimal`
  division performs (100-digit default precision) can never influence an
  observable result.
* Rust panics (failed `assert!`, out-of-range `Vec` indexing, division by
  zero, `unwrap` on a failed `U256` parse, `U256` arithmetic overflow) are
  modelled as `Except.error` outcomes, one constructor per panic site.
* The two uses of `rand::thread_rng` are modelled by explicit injected
  entropy: a finite list of raw draws for the coordinate-selection loop of
  `SecretService::getRandomDifferentNumbers` (the list doubles as fuel: the
  outcome `Err.noTermination` means the loop has not finished within the
  supplied draws) and a stream `Nat → Nat` for the coefficients drawn in
  `ShamirAlgorithm::polynomialGenerator`.  `gen_range(1..255)` produces a
  value in `[1, 254]`, modelled by mapping a raw draw `d` to `1 + d % 254`;
  `gen::<u128>()` is modelled by reducing the raw draw modulo `2 ^ 128`.
-/

set_option maxRecDepth 8000

deriving instance DecidableEq for Except

namespace RustMpc

/-- Panic/failure outcomes of the embedded code, one constructor per
panic or error site in the Rust source. -/
inductive Err where
  /-- `ShamirAlgorithm::new`: `assert!(!(x.lt(&2)), "Degree must be greater than or equal to 2")`. -/
  | degreeAssert
  /-- `SecretService::getRandomDifferentNumbers`: `assert!(!(amount <= 2), ...)`. -/
  | amountAssert
  /-- The coordinate-selection loop did not finish within the supplied draws. -/
  | noTermination
  /-- `U256::from_str_radix(secret, 16).unwrap()` failed in `secretPartition`. -/
  | parseError
  /-- `ShamirAlgorithm::fromValues`: `assert!(values.len() <= self.degree, "Size must be greater than degree")` failed. -/
  | sizeAssert
  /-- Out-of-range `Vec` indexing panic (`values[i]` / `values[j]`). -/
  | indexOOB
  /-- `BigDecimal` division-by-zero panic in `fromValues`. -/
  | divByZero
  /-- `U256::from_str_radix(..., 10).unwrap()` failed inside `Polynomial::evaluate_at`
  (negative or `≥ 2^256` operand). -/
  | u256Parse
  /-- `U256` `pow`/`mul` overflow panic inside `Polynomial::evaluate_at`. -/
  | u256Overflow
deriving DecidableEq

/-- Model of `struct Polynomial` from `src/util/polynomials.rs`:
arbitrary-precision coefficients (index = degree) plus a display symbol. -/
structure Polynomial where
  coefficients : List ℤ
  indeterminate : Char
deriving DecidableEq

/-- `Polynomial::strip_from_end`: count the trailing run of elements equal to
`object` (the `for item in list.iter().rev() { ... break }` loop) and resize
the clone to `list.len() - strip_amount`, i.e. truncate that run. -/
def Polynomial.strip_from_end (list : List ℤ) (object : ℤ) : List ℤ :=
  list.take (list.length - (list.reverse.takeWhile (fun x => decide (x = object))).length)

/-- `Polynomial::new`: strip trailing zero coefficients; an empty result is
replaced by the canonical zero polynomial `[0]`. -/
def Polynomial.new (coefficients : List ℤ) (indeterminate : Char) : Polynomial :=
  let stripped_coefficients := Polynomial.strip_from_end coefficients 0
  if stripped_coefficients.length = 0 then
    { coefficients := [0], indeterminate := indeterminate }
  else
    { coefficients := stripped_coefficients, indeterminate := indeterminate }

/-- `Polynomial::add`: resize the shorter coefficient vector with zeros to the
longer length, add pointwise, renormalize through `Polynomial::new`. -/
def Polynomial.add (p other : Polynomial) : Polynomial :=
  let n := max p.coefficients.length other.coefficients.length
  let a_coefficients := p.coefficients ++ List.replicate (n - p.coefficients.length) 0
  let b_coefficients := other.coefficients ++ List.replicate (n - other.coefficients.length) 0
  Polynomial.new (List.zipWith (fun x y => x + y) a_coefficients b_coefficients) 'x'

/-- `Polynomial::sub`: negate every coefficient of `other` (multiplication by
`-1`, renormalized by `new`) and add. -/
def Polynomial.sub (p other : Polynomial) : Polynomial :=
  let negative_coefficients := other.coefficients.map (fun coeff => coeff * (-1))
  let negative := Polynomial.new negative_coefficients 'x'
  p.add negative

/-- The buffer filled by the double loop of `Polynomial::multiply`:
`new_coefficients` starts as `len(a) * len(b)` zeros and position `k`
accumulates `a[i] * b[j]` over all `i`, `j` with `i + j = k`. -/
def Polynomial.mulBuffer (a b : List ℤ) : List ℤ :=
  (List.range (a.length * b.length)).map (fun k =>
    a.enum.foldl (fun s ic =>
      b.enum.foldl (fun s2 jc =>
        if ic.1 + jc.1 = k then s2 + ic.2 * jc.2 else s2) s) 0)

/-- `Polynomial::multiply`: discrete convolution into the over-allocated
buffer, renormalized through `Polynomial::new`. -/
def Polynomial.multiply (p other : Polynomial) : Polynomial :=
  Polynomial.new (Polynomial.mulBuffer p.coefficients other.coefficients) 'x'

/-- `U256::from_str_radix(value.to_string(), 10).unwrap()` applied to an
integer-valued `BigDecimal`: succeeds exactly on nonnegative operands below
`2 ^ 256`; anything else (a `-` sign in the rendered string, or overflow)
makes the parse fail, so the `unwrap` panics. -/
def u256OfBD (v : ℤ) : Except Err ℕ :=
  if 0 ≤ v ∧ v < 2 ^ 256 then .ok v.toNat else .error .u256Parse

/-- The evaluation loop of `Polynomial::evaluate_at` over the enumerated
coefficients: per iteration, parse the determinate and the coefficient into
`U256`, compute `tmp.pow(degree) * tmp2` (both `pow` and `*` panic when the
result would reach `2 ^ 256`), and accumulate the term into the exact
`BigDecimal` sum. -/
def evalGo (determinate : ℤ) : List (ℕ × ℤ) → ℤ → Except Err ℤ
  | [], sum => .ok sum
  | (degree, coeff) :: rest, sum =>
    match u256OfBD determinate with
    | .error e => .error e
    | .ok tmp =>
      match u256OfBD coeff with
      | .error e => .error e
      | .ok tmp2 =>
        if 2 ^ 256 ≤ tmp ^ degree then .error .u256Overflow
        else if 2 ^ 256 ≤ tmp ^ degree * tmp2 then .error .u256Overflow
        else evalGo determinate rest (sum + ((tmp ^ degree * tmp2 : ℕ) : ℤ))

/-- `Polynomial::evaluate_at`. -/
def Polynomial.evaluate_at (p : Polynomial) (determinate : ℤ) : Except Err ℤ :=
  evalGo determinate p.coefficients.enum 0

/-- Display of an integer-valued `BigDecimal` (`format!("{}", coeff)`):
plain decimal digits with a leading `-` when negative, i.e. `ℤ` display. -/
def bdStr (v : ℤ) : String :=
  toString v

/-- One iteration of the rendering loop of `Polynomial::as_string`: the
degree-0 coefficient replaces the accumulator, the degree-1 term is appended
unconditionally (the zero test comes only after the `degree == 1` branch),
and a term of degree `≥ 2` is appended only when its coefficient is nonzero. -/
def termPiece (ind : Char) (acc : String) (dc : ℕ × ℤ) : String :=
  if dc.1 = 0 then bdStr dc.2
  else if dc.1 = 1 then acc ++ " + " ++ bdStr dc.2 ++ ind.toString
  else if dc.2 = 0 then acc
  else acc ++ " + " ++ bdStr dc.2 ++ ind.toString ++ "^" ++ toString dc.1

/-- `Polynomial::as_string`: fold the rendering loop over the enumerated
coefficients and wrap the result in `f(<indeterminate>) = <terms>`. -/
def Polynomial.as_string (p : Polynomial) : String :=
  "f(" ++ p.indeterminate.toString ++ ") = " ++
    p.coefficients.enum.foldl (termPiece p.indeterminate) ""

/-- `Polynomial::degree`: `-1` for the canonical zero polynomial `[0]`,
otherwise `len(coefficients) - 1`. -/
def Polynomial.degree (p : Polynomial) : ℤ :=
  if p.coefficients = [0] then -1 else (p.coefficients.length : ℤ) - 1


/-!
The interior of `ShamirAlgorithm::fromValues` performs `BigDecimal` division,
so the polynomial routines are instantiated there at rational coefficients:
`PolyQ` and the `*Q` functions below mirror `Polynomial` and its operations
verbatim at `ℚ`.  (`BigDecimal` division rounds to a default precision of 100
digits; the exact `ℚ` division used here can only differ in the coefficient
values of intermediate polynomials, and those are proved unobservable:
`fromValues` fails on every input before returning.)
-/

/-- `Polynomial` instantiated at rational coefficients, for the interior of
`fromValues`. -/
structure PolyQ where
  coefficients : List ℚ
  indeterminate : Char
deriving DecidableEq

/-- `Polynomial::strip_from_end` at rational coefficients. -/
def stripFromEndQ (list : List ℚ) (object : ℚ) : List ℚ :=
  list.take (list.length - (list.reverse.takeWhile (fun x => decide (x = object))).length)

/-- `Polynomial::new` at rational coefficients. -/
def PolyQ.new (coefficients : List ℚ) (indeterminate : Char) : PolyQ :=
  let stripped_coefficients := stripFromEndQ coefficients 0
  if stripped_coefficients.length = 0 then
    { coefficients := [0], indeterminate := indeterminate }
  else
    { coefficients := stripped_coefficients, indeterminate := indeterminate }

/-- `Polynomial::add` at rational coefficients. -/
def PolyQ.add (p other : PolyQ) : PolyQ :=
  let n := max p.coefficients.length other.coefficients.length
  let a_coefficients := p.coefficients ++ List.replicate (n - p.coefficients.length) 0
  let b_coefficients := other.coefficients ++ List.replicate (n - other.coefficients.length) 0
  PolyQ.new (List.zipWith (fun x y => x + y) a_coefficients b_coefficients) 'x'

/-- The multiplication buffer of `Polynomial::multiply` at rational
coefficients. -/
def mulBufferQ (a b : List ℚ) : List ℚ :=
  (List.range (a.length * b.length)).map (fun k =>
    a.enum.foldl (fun s ic =>
      b.enum.foldl (fun s2 jc =>
        if ic.1 + jc.1 = k then s2 + ic.2 * jc.2 else s2) s) 0)

/-- `Polynomial::multiply` at rational coefficients. -/
def PolyQ.multiply (p other : PolyQ) : PolyQ :=
  PolyQ.new (mulBufferQ p.coefficients other.coefficients) 'x'

/-- Display of a `BigDecimal` at rational values (only integer-valued
rationals are ever rendered; the fractional fallback is written `num/den`). -/
def bdStrQ (q : ℚ) : String :=
  if q.den = 1 then toString q.num else toString q.num ++ "/" ++ toString q.den

/-- The rendering loop of `Polynomial::as_string` at rational coefficients. -/
def termPieceQ (ind : Char) (acc : String) (dc : ℕ × ℚ) : String :=
  if dc.1 = 0 then bdStrQ dc.2
  else if dc.1 = 1 then acc ++ " + " ++ bdStrQ dc.2 ++ ind.toString
  else if dc.2 = 0 then acc
  else acc ++ " + " ++ bdStrQ dc.2 ++ ind.toString ++ "^" ++ toString dc.1

/-- `Polynomial::as_string` at rational coefficients. -/
def PolyQ.as_string (p : PolyQ) : String :=
  "f(" ++ p.indeterminate.toString ++ ") = " ++
    p.coefficients.enum.foldl (termPieceQ p.indeterminate) ""

/-- Model of `struct ShamirAlgorithm` from `src/util/shamir.rs`. -/
structure ShamirAlgorithm where
  degree : ℕ

/-- `ShamirAlgorithm::new`: default the degree to `2` when absent; the
`assert!` panics when the degree is below `2`. -/
def ShamirAlgorithm.new (degree : Option ℕ) : Except Err ShamirAlgorithm :=
  let x := degree.getD 2
  if x < 2 then .error .degreeAssert else .ok { degree := x }

/-- `ShamirAlgorithm::polynomialGenerator`: push the secret value, then draw
`degree` random `u128` coefficients (`for _i in 1..=self.degree`), and
normalize through `Polynomial::new`.  `coeffDraws` is the injected random
stream; `gen::<u128>()` is its value reduced modulo `2 ^ 128`. -/
def ShamirAlgorithm.polynomialGenerator (a : ShamirAlgorithm) (value : ℤ)
    (coeffDraws : ℕ → ℕ) : Polynomial :=
  Polynomial.new
    (value :: (List.range a.degree).map (fun i => ((coeffDraws i % 2 ^ 128 : ℕ) : ℤ)))
    'x'

/-- The inner `for j in 0..=self.degree` loop of `ShamirAlgorithm::fromValues`
for a fixed `i`, carried over the remaining list of `j` indices with the
`inner_polynom: Option<Polynomial>` state.  Per iteration with `j != i` the
source evaluates, in order: `values[j][0]` (numerator of `c1`), `values[i][0]`
(denominator), then divides — panicking on an out-of-range index or a zero
denominator — and multiplies the accumulated polynomial by
`x_i * c1 + (x_i * c2) x`.  (The `y` coordinates, `values[_][1]`, are never
read.) -/
def fvInner (values : List (ℤ × ℤ)) (i : ℕ) : List ℕ → Option PolyQ → Except Err (Option PolyQ)
  | [], inner_polynom => .ok inner_polynom
  | j :: js, inner_polynom =>
    if j = i then fvInner values i js inner_polynom
    else
      match values[j]? with
      | none => .error .indexOOB
      | some vj =>
        match values[i]? with
        | none => .error .indexOOB
        | some vi =>
          if vi.1 - vj.1 = 0 then .error .divByZero
          else
            let c1 : ℚ := (-1 * (vj.1 : ℚ)) / ((vi.1 : ℚ) - (vj.1 : ℚ))
            let c2 : ℚ := 1 / ((vi.1 : ℚ) - (vj.1 : ℚ))
            let tmp := PolyQ.new [(vi.1 : ℚ) * c1, (vi.1 : ℚ) * c2] 'x'
            let next := (inner_polynom.getD (PolyQ.new [1] 'x')).multiply tmp
            fvInner values i js (some next)

/-- The outer `for i in 0..=self.degree` loop of `fromValues`, accumulating
the interpolated polynomial. -/
def fvOuter (values : List (ℤ × ℤ)) (deg : ℕ) : List ℕ → PolyQ → Except Err PolyQ
  | [], polynom => .ok polynom
  | i :: is, polynom =>
    match fvInner values i (List.range (deg + 1)) none with
    | .error e => .error e
    | .ok inner_polynom =>
      fvOuter values deg is
        (match inner_polynom with
         | some q => polynom.add q
         | none => polynom)

/-- `ShamirAlgorithm::fromValues`: the (inverted) share-count assert
`assert!(values.len() <= self.degree, "Size must be greater than degree")`
followed by the double interpolation loop. -/
def ShamirAlgorithm.fromValues (a : ShamirAlgorithm) (values : List (ℤ × ℤ)) :
    Except Err PolyQ :=
  if values.length ≤ a.degree then
    fvOuter values a.degree (List.range (a.degree + 1)) (PolyQ.new [0] 'x')
  else .error .sizeAssert

/-- One hexadecimal digit, as accepted by `U256::from_str_radix(_, 16)`. -/
def hexDigit (c : Char) : Option ℕ :=
  if '0' ≤ c ∧ c ≤ '9' then some (c.toNat - 48)
  else if 'a' ≤ c ∧ c ≤ 'f' then some (c.toNat - 87)
  else if 'A' ≤ c ∧ c ≤ 'F' then some (c.toNat - 55)
  else none

/-- `U256::from_str_radix(secret, 16).unwrap()` followed by
`to_string`/`BigDecimal::from_str`: parse the secret as plain hexadecimal
digits; an empty string, a non-hex character, or a value reaching `2 ^ 256`
makes the `unwrap` panic. -/
def parseSecretHex (s : String) : Except Err ℤ :=
  match s.data.foldlM (fun (acc : ℕ) c => (hexDigit c).map (fun d => acc * 16 + d)) 0 with
  | none => .error .parseError
  | some n =>
    if s.isEmpty then .error .parseError
    else if 2 ^ 256 ≤ n then .error .parseError
    else .ok (n : ℤ)

/-- The `while result.len() != amount` loop of
`SecretService::getRandomDifferentNumbers`, carried over the remaining raw
draws: check the length first, then draw `gen_range(1..255)` (a raw draw `d`
yields the coordinate `1 + d % 254`), and push it unless already present. -/
def grdnLoop (amount : ℕ) : List ℕ → List ℤ → Option (List ℤ)
  | [], result => if result.length = amount then some result else none
  | d :: rest, result =>
    if result.length = amount then some result
    else
      let r : ℤ := ((1 + d % 254 : ℕ) : ℤ)
      if r ∈ result then grdnLoop amount rest result
      else grdnLoop amount rest (result ++ [r])

/-- `SecretService::getRandomDifferentNumbers`: the `assert!(!(amount <= 2))`
gate (whose message, `"Amount: {} must be lower than {}", amount, 2`, states
the opposite of the enforced condition), then the selection loop.  Running
out of supplied draws is reported as `Err.noTermination`: the real loop would
still be spinning. -/
def SecretService.getRandomDifferentNumbers (amount : ℕ) (draws : List ℕ) :
    Except Err (List ℤ) :=
  if amount ≤ 2 then .error .amountAssert
  else
    match grdnLoop amount draws [] with
    | none => .error .noTermination
    | some result => .ok result

/-- The share-building loop of `SecretService::secretPartition`: evaluate the
polynomial at each selected coordinate, pushing `vec![x, evaluation]`;
a panic inside `evaluate_at` aborts the whole call. -/
def evalShares (polynomial : Polynomial) : List ℤ → Except Err (List (ℤ × ℤ))
  | [] => .ok []
  | x :: xs =>
    match polynomial.evaluate_at x with
    | .error e => .error e
    | .ok evaluation =>
      match evalShares polynomial xs with
      | .error e => .error e
      | .ok rest => .ok ((x, evaluation) :: rest)

/-- `SecretService::secretPartition`: construct the engine (degree assert),
select the coordinates (amount assert + selection loop), parse the secret
from hexadecimal, build the random polynomial with the secret as constant
term, and evaluate it at every coordinate. -/
def SecretService.secretPartition (degree : ℕ) (secret : String) (parties : ℕ)
    (draws : List ℕ) (coeffDraws : ℕ → ℕ) : Except Err (List (ℤ × ℤ)) :=
  match ShamirAlgorithm.new (some degree) with
  | .error e => .error e
  | .ok shamir =>
    match SecretService.getRandomDifferentNumbers parties draws with
    | .error e => .error e
    | .ok rand_nums =>
      match parseSecretHex secret with
      | .error e => .error e
      | .ok s => evalShares (shamir.polynomialGenerator s coeffDraws) rand_nums

/-- `SecretService::getSecret`: construct the engine (degree assert), run
`fromValues` on the supplied shares, and render the resulting polynomial
with `as_string` (note: the source returns this string, not an integer). -/
def SecretService.getSecret (degree : ℕ) (values : List (ℤ × ℤ)) : Except Err String :=
  match ShamirAlgorithm.new (some degree) with
  | .error e => .error e
  | .ok shamir =>
    match shamir.fromValues values with
    | .error e => .error e
    | .ok p => .ok p.as_string

/-!
Helper lemmas.  `fromValues` can never return normally: its opening assert
demands `values.len() <= degree`, while the double interpolation loop indexes
`values[j]` for every `j` up to `degree`, so one of the two must panic.
-/

/-- If some index `j` in the remaining inner-loop list differs from `i` and
lies beyond the share list, the inner loop of `fromValues` ends in an
index-out-of-bounds or division-by-zero panic. -/
theorem fvInner_fails (values : List (ℤ × ℤ)) (i : ℕ) :
    ∀ (js : List ℕ) (st : Option PolyQ), (∃ j ∈ js, j ≠ i ∧ values.length ≤ j) →
      ∃ e, fvInner values i js st = .error e ∧ (e = Err.indexOOB ∨ e = Err.divByZero) := by
  intro js
  induction js with
  | nil => intro st h; simp at h
  | cons j js ih =>
    intro st h
    obtain ⟨j0, hj0mem, hj0ne, hj0len⟩ := h
    by_cases hji : j = i
    · have hj0tail : j0 ∈ js := by
        rcases List.mem_cons.mp hj0mem with h1 | h1
        · exact absurd (h1 ▸ hji) hj0ne
        · exact h1
      obtain ⟨e, he, hkind⟩ := ih st ⟨j0, hj0tail, hj0ne, hj0len⟩
      exact ⟨e, by simpa [fvInner, hji] using he, hkind⟩
    · rcases hvj : values[j]? with _ | vj
      · exact ⟨Err.indexOOB, by simp [fvInner, hji, hvj], Or.inl rfl⟩
      · rcases hvi : values[i]? with _ | vi
        · exact ⟨Err.indexOOB, by simp [fvInner, hji, hvj, hvi], Or.inl rfl⟩
        · by_cases hz : vi.1 - vj.1 = 0
          · exact ⟨Err.divByZero, by simp [fvInner, hji, hvj, hvi, hz], Or.inr rfl⟩
          · have hjlt : j < values.length := by
              by_contra hge
              have : values[j]? = none := List.getElem?_eq_none (Nat.le_of_not_lt hge)
              simp [this] at hvj
            have hj0tail : j0 ∈ js := by
              rcases List.mem_cons.mp hj0mem with h1 | h1
              · exact absurd (h1 ▸ hj0len) (by omega)
              · exact h1
            obtain ⟨e, he, hkind⟩ :=
              ih _ ⟨j0, hj0tail, hj0ne, hj0len⟩
            exact ⟨e, by simpa [fvInner, hji, hvj, hvi, hz] using he, hkind⟩

/-- With at most `degree` shares supplied (so that the size assert passes),
`fromValues` still fails: the `i = 0` iteration of the outer loop runs its
inner loop over `j = 0..degree` and panics on an out-of-range index or a zero
denominator. -/
theorem fromValues_short_fails (t : ℕ) (values : List (ℤ × ℤ)) (ht : 2 ≤ t)
    (hlen : values.length ≤ t) :
    ∃ e, ShamirAlgorithm.fromValues { degree := t } values = .error e ∧
      (e = Err.indexOOB ∨ e = Err.divByZero) := by
  have hwit : ∃ j ∈ List.range (t + 1), j ≠ 0 ∧ values.length ≤ j := by
    refine ⟨max 1 values.length, List.mem_range.mpr (by omega), by omega, by omega⟩
  obtain ⟨e, he, hkind⟩ := fvInner_fails values 0 (List.range (t + 1)) none hwit
  refine ⟨e, ?_, hkind⟩
  simp only [ShamirAlgorithm.fromValues, if_pos hlen]
  rw [List.range_succ_eq_map]
  simp only [fvOuter]
  rw [he]

/-- With more than `degree` shares supplied, the inverted size assert of
`fromValues` fires at once. -/
theorem fromValues_long_fails (t : ℕ) (values : List (ℤ × ℤ))
    (hlen : t < values.length) :
    ShamirAlgorithm.fromValues { degree := t } values = .error Err.sizeAssert := by
  simp [ShamirAlgorithm.fromValues, Nat.not_le.mpr hlen]

/-- `ShamirAlgorithm::new(Some(t))` succeeds exactly when `2 ≤ t`. -/
theorem shamir_new_ok (t : ℕ) (ht : 2 ≤ t) :
    ShamirAlgorithm.new (some t) = .ok { degree := t } := by
  simp [ShamirAlgorithm.new, Nat.not_lt.mpr ht]

/-- C1: reconstruction can never return the secret.  The claim states that
feeding any `(t+1)`-subset of the shares produced by `secretPartition` into
`getSecret` returns the secret; in the code, `fromValues` opens with
`assert!(values.len() <= self.degree, "Size must be greater than degree")` —
a condition inverted with respect to its own message — so a quorum of `t+1`
shares makes the assert panic unconditionally (and even on success the
function would return `as_string` of a polynomial, a `String`, not the
secret integer).  The code contradicts its own assert message and the spec:
a code bug. -/
theorem getSecret_of_split_quorum_panics (t : ℕ) (secret : String) (n : ℕ)
    (draws : List ℕ) (coeffDraws : ℕ → ℕ) (shares sub : List (ℤ × ℤ))
    (ht : 2 ≤ t) (ht10 : t ≤ 10) (hn : t + 1 ≤ n)
    (hsplit : SecretService.secretPartition t secret n draws coeffDraws = .ok shares)
    (hsub : sub ⊆ shares) (hlen : sub.length = t + 1) :
    SecretService.getSecret t sub = .error Err.sizeAssert := by
  simp only [SecretService.getSecret, shamir_new_ok t ht]
  rw [fromValues_long_fails t sub (by omega)]

/-- Witness for C1's theorem: a concrete split of secret `0x2a = 42` with
degree 2 among 3 parties yields shares `(1,45), (2,52), (3,63)`, and feeding
those 3 shares back panics on the size assert instead of returning 42. -/
theorem getSecret_of_split_quorum_panics_witness :
    SecretService.getSecret 2 [(1, 45), (2, 52), (3, 63)] = .error Err.sizeAssert :=
  getSecret_of_split_quorum_panics 2 "2a" 3 [0, 1, 2] (fun i => i + 1)
    [(1, 45), (2, 52), (3, 63)] [(1, 45), (2, 52), (3, 63)]
    (by decide) (by decide) (by decide) (by decide)
    (List.Subset.refl _) (by decide)

/-- C2: calling reconstruction with fewer than `t + 1` shares does fail and
never returns a value — but not with the claimed
`InsufficientShares(required, got)`: the assert meant to enforce the share
count is inverted (`values.len() <= degree` passes precisely in the
insufficient case), and the failure actually observed is an
index-out-of-bounds or division-by-zero panic inside the interpolation
loop.  The code contradicts its own assert message: a code bug. -/
theorem getSecret_insufficient_shares_panics (t : ℕ) (values : List (ℤ × ℤ))
    (ht : 2 ≤ t) (hlen : values.length < t + 1) :
    ∃ e, SecretService.getSecret t values = .error e ∧
      (e = Err.indexOOB ∨ e = Err.divByZero) := by
  obtain ⟨e, he, hkind⟩ := fromValues_short_fails t values ht (by omega)
  refine ⟨e, ?_, hkind⟩
  simp only [SecretService.getSecret, shamir_new_ok t ht, he]

/-- Witness for C2's theorem: two shares with degree 2 (the spec's concrete
scenario 3, which expects `InsufficientShares(required=3, got=2)`). -/
theorem getSecret_insufficient_shares_panics_witness :
    ∃ e, SecretService.getSecret 2 [(1, 45), (2, 52)] = .error e ∧
      (e = Err.indexOOB ∨ e = Err.divByZero) :=
  getSecret_insufficient_shares_panics 2 [(1, 45), (2, 52)] (by decide) (by decide)

/-- C4 counterexample: two shares with the duplicated coordinate `x = 1` and
degree 2 make `fromValues` panic with a `BigDecimal` division by zero
(`values[i][0] - values[j][0]` vanishes in the denominator of `c1`), not
with any `DuplicateCoordinate` error — no duplicate check exists in the
code. -/
theorem fromValues_duplicate_counterexample :
    ShamirAlgorithm.fromValues { degree := 2 } [(1, 45), (1, 52)] = .error Err.divByZero := by
  decide

/-- C4 amended: on every share list with a duplicated `x` coordinate (indeed
on every share list whatsoever), `fromValues` fails rather than returning a
value — but the failure is the inverted size assert (when more than `degree`
shares are supplied) or an index-out-of-bounds / division-by-zero panic
(when at most `degree` are), never a dedicated `DuplicateCoordinate`
error. -/
theorem fromValues_duplicate_fails (t : ℕ) (values : List (ℤ × ℤ))
    (ht : 2 ≤ t) (hdup : ¬ (values.map Prod.fst).Nodup) :
    ∃ e, ShamirAlgorithm.fromValues { degree := t } values = .error e ∧
      (e = Err.sizeAssert ∨ e = Err.indexOOB ∨ e = Err.divByZero) := by
  by_cases hlen : values.length ≤ t
  · obtain ⟨e, he, hkind⟩ := fromValues_short_fails t values ht hlen
    exact ⟨e, he, by tauto⟩
  · exact ⟨Err.sizeAssert, fromValues_long_fails t values (by omega), Or.inl rfl⟩

/-- Witness for C4's amended theorem: three shares sharing the coordinate
`x = 3`. -/
theorem fromValues_duplicate_fails_witness :
    ∃ e, ShamirAlgorithm.fromValues { degree := 2 } [(3, 1), (3, 2), (4, 5)] = .error e ∧
      (e = Err.sizeAssert ∨ e = Err.indexOOB ∨ e = Err.divByZero) :=
  fromValues_duplicate_fails 2 [(3, 1), (3, 2), (4, 5)] (by decide) (by decide)

/-- The `U256` parse inside `evaluate_at` fails only with `u256Parse`. -/
theorem u256OfBD_error (v : ℤ) (e : Err) (h : u256OfBD v = .error e) :
    e = Err.u256Parse := by
  unfold u256OfBD at h
  split at h
  · exact absurd h (by simp)
  · simp only [Except.error.injEq] at h
    exact h.symm

/-- The evaluation loop fails only with a parse or overflow panic. -/
theorem evalGo_error_kinds (v : ℤ) :
    ∀ (l : List (ℕ × ℤ)) (s : ℤ) (e : Err), evalGo v l s = .error e →
      e = Err.u256Parse ∨ e = Err.u256Overflow := by
  intro l
  induction l with
  | nil => intro s e h; simp [evalGo] at h
  | cons hd tl ih =>
    intro s e h
    obtain ⟨deg, c⟩ := hd
    rw [evalGo] at h
    rcases hv : u256OfBD v with ev | tmp
    · rw [hv] at h
      simp only [Except.error.injEq] at h
      exact Or.inl (h ▸ u256OfBD_error v ev hv)
    · rw [hv] at h
      rcases hc : u256OfBD c with ec | tmp2
      · rw [hc] at h
        simp only [Except.error.injEq] at h
        exact Or.inl (h ▸ u256OfBD_error c ec hc)
      · rw [hc] at h
        dsimp only at h
        by_cases h1 : 2 ^ 256 ≤ tmp ^ deg
        · rw [if_pos h1] at h
          simp only [Except.error.injEq] at h
          exact Or.inr h.symm
        · rw [if_neg h1] at h
          by_cases h2 : 2 ^ 256 ≤ tmp ^ deg * tmp2
          · rw [if_pos h2] at h
            simp only [Except.error.injEq] at h
            exact Or.inr h.symm
          · rw [if_neg h2] at h
            exact ih _ e h

/-- `Polynomial::evaluate_at` fails only with a parse or overflow panic. -/
theorem evaluate_at_error_kinds (p : Polynomial) (v : ℤ) (e : Err)
    (h : p.evaluate_at v = .error e) : e = Err.u256Parse ∨ e = Err.u256Overflow :=
  evalGo_error_kinds v p.coefficients.enum 0 e h

/-- The share-building loop fails only through `evaluate_at`. -/
theorem evalShares_error_kinds (p : Polynomial) :
    ∀ (xs : List ℤ) (e : Err), evalShares p xs = .error e →
      e = Err.u256Parse ∨ e = Err.u256Overflow := by
  intro xs
  induction xs with
  | nil => intro e h; simp [evalShares] at h
  | cons x xs ih =>
    intro e h
    rw [evalShares] at h
    rcases hev : p.evaluate_at x with ee | y
    · rw [hev] at h
      simp only [Except.error.injEq] at h
      exact h ▸ evaluate_at_error_kinds p x ee hev
    · rw [hev] at h
      rcases hrest : evalShares p xs with ee | rest
      · rw [hrest] at h
        simp only [Except.error.injEq] at h
        exact h ▸ ih ee hrest
      · rw [hrest] at h
        exact absurd h (by simp)

/-- Hex parsing of the secret fails only with `parseError`. -/
theorem parseSecretHex_error_kind (s : String) (e : Err)
    (h : parseSecretHex s = .error e) : e = Err.parseError := by
  unfold parseSecretHex at h
  split at h
  · simp only [Except.error.injEq] at h
    exact h.symm
  · split at h
    · simp only [Except.error.injEq] at h
      exact h.symm
    · split at h
      · simp only [Except.error.injEq] at h
        exact h.symm
      · exact absurd h (by simp)

/-- With `3 ≤ amount` the coordinate selection fails only by not finishing
within the supplied draws. -/
theorem getRandomDifferentNumbers_error_kind (amount : ℕ) (draws : List ℕ) (e : Err)
    (hamount : 3 ≤ amount)
    (h : SecretService.getRandomDifferentNumbers amount draws = .error e) :
    e = Err.noTermination := by
  unfold SecretService.getRandomDifferentNumbers at h
  rw [if_neg (by omega)] at h
  rcases hl : grdnLoop amount draws [] with _ | result
  · rw [hl] at h
    simp only [Except.error.injEq] at h
    exact h.symm
  · rw [hl] at h
    exact absurd h (by simp)

/-- C3 counterexample: `split(secret = 0x2a, partyCount = 3, degree = 3)` has
`partyCount < degree + 1`, yet the code validates only `degree ≥ 2` and
`partyCount > 2`, so the call succeeds and returns three shares instead of
failing with `InvalidParameters`. -/
theorem secretPartition_underparty_counterexample :
    SecretService.secretPartition 3 "2a" 3 [0, 1, 2] (fun i => i + 1) =
      .ok [(1, 48), (2, 76), (3, 144)] := by
  decide

/-- C3 amended: `secretPartition` fails on its parameters exactly when
`degree < 2` (the degree assert in `ShamirAlgorithm::new`) or
`partyCount ≤ 2` (the amount assert in `getRandomDifferentNumbers`); the
spec's condition `partyCount ≥ degree + 1` is never checked, and with
`degree ≥ 2` and `partyCount ≥ 3` any failure comes from later stages
(secret parsing, evaluation overflow, or the selection loop not finishing),
never from parameter validation. -/
theorem secretPartition_param_validation (degree : ℕ) (secret : String) (parties : ℕ)
    (draws : List ℕ) (coeffDraws : ℕ → ℕ) :
    (degree < 2 →
      SecretService.secretPartition degree secret parties draws coeffDraws =
        .error Err.degreeAssert) ∧
    (2 ≤ degree → parties ≤ 2 →
      SecretService.secretPartition degree secret parties draws coeffDraws =
        .error Err.amountAssert) ∧
    (2 ≤ degree → 3 ≤ parties → ∀ e,
      SecretService.secretPartition degree secret parties draws coeffDraws = .error e →
        e = Err.noTermination ∨ e = Err.parseError ∨
        e = Err.u256Parse ∨ e = Err.u256Overflow) := by
  refine ⟨?_, ?_, ?_⟩
  · intro hd
    simp [SecretService.secretPartition, ShamirAlgorithm.new, hd]
  · intro hd hp
    simp [SecretService.secretPartition, shamir_new_ok degree hd,
      SecretService.getRandomDifferentNumbers, hp]
  · intro hd hp e h
    simp only [SecretService.secretPartition, shamir_new_ok degree hd] at h
    rcases hg : SecretService.getRandomDifferentNumbers parties draws with eg | rand_nums
    · rw [hg] at h
      simp only [Except.error.injEq] at h
      exact Or.inl (h ▸ getRandomDifferentNumbers_error_kind parties draws eg hp hg)
    · rw [hg] at h
      rcases hs : parseSecretHex secret with es | sv
      · rw [hs] at h
        simp only [Except.error.injEq] at h
        exact Or.inr (Or.inl (h ▸ parseSecretHex_error_kind secret es hs))
      · rw [hs] at h
        have := evalShares_error_kinds _ rand_nums e h
        tauto

/-- Witness for C3's amended theorem: degree 1 trips the degree assert and
party count 2 trips the amount assert. -/
theorem secretPartition_param_validation_witness :
    SecretService.secretPartition 1 "2a" 3 [] (fun i => i) = .error Err.degreeAssert ∧
    SecretService.secretPartition 2 "2a" 2 [] (fun i => i) = .error Err.amountAssert :=
  ⟨(secretPartition_param_validation 1 "2a" 3 [] (fun i => i)).1 (by decide),
   (secretPartition_param_validation 2 "2a" 2 [] (fun i => i)).2.1 (by decide) (by decide)⟩

/-- The value drawn by one `gen_range(1..255)` call, as pushed into the
coordinate list. -/
def drawVal (d : ℕ) : ℤ :=
  ((1 + d % 254 : ℕ) : ℤ)

/-- A coordinate produced by the selection loop: the integer image of some
`k ∈ [1, 254]`. -/
def inDrawRange (q : ℤ) : Prop :=
  ∃ k : ℕ, 1 ≤ k ∧ k ≤ 254 ∧ q = (k : ℤ)

/-- Each drawn value lies in `[1, 254]`. -/
theorem drawVal_inDrawRange (d : ℕ) : inDrawRange (drawVal d) := by
  refine ⟨1 + d % 254, by omega, ?_, rfl⟩
  have : d % 254 < 254 := Nat.mod_lt d (by omega)
  omega

/-- Invariant of the selection loop: a successful run extends the nodup,
in-range accumulator to a nodup, in-range list of exactly `amount`
coordinates. -/
theorem grdnLoop_ok_props (amount : ℕ) :
    ∀ (ds : List ℕ) (acc out : List ℤ), grdnLoop amount ds acc = some out →
      acc.Nodup → (∀ q ∈ acc, inDrawRange q) →
      out.length = amount ∧ out.Nodup ∧ ∀ q ∈ out, inDrawRange q := by
  intro ds
  induction ds with
  | nil =>
    intro acc out h hnd hrange
    rw [grdnLoop] at h
    split at h
    · cases h
      exact ⟨by assumption, hnd, hrange⟩
    · exact absurd h (by simp)
  | cons d rest ih =>
    intro acc out h hnd hrange
    rw [grdnLoop] at h
    split at h
    · cases h
      exact ⟨by assumption, hnd, hrange⟩
    · by_cases hmem : drawVal d ∈ acc
      · rw [if_pos (show ((1 + d % 254 : ℕ) : ℤ) ∈ acc from hmem)] at h
        exact ih acc out h hnd hrange
      · rw [if_neg (show ¬ ((1 + d % 254 : ℕ) : ℤ) ∈ acc from hmem)] at h
        refine ih _ out h ?_ ?_
        · rw [List.nodup_append]
          refine ⟨hnd, List.nodup_singleton _, ?_⟩
          intro a ha hb
          simp only [List.mem_singleton] at hb
          exact hmem (show ((1 + d % 254 : ℕ) : ℤ) ∈ acc from hb ▸ ha)
        · intro q hq
          rcases List.mem_append.mp hq with hq | hq
          · exact hrange q hq
          · simp only [List.mem_singleton] at hq
            exact hq ▸ drawVal_inDrawRange d

/-- A successful coordinate selection returns exactly `amount` pairwise
distinct coordinates from `[1, 254]`. -/
theorem getRandomDifferentNumbers_ok_props (amount : ℕ) (draws : List ℕ)
    (rand_nums : List ℤ)
    (h : SecretService.getRandomDifferentNumbers amount draws = .ok rand_nums) :
    rand_nums.length = amount ∧ rand_nums.Nodup ∧ ∀ q ∈ rand_nums, inDrawRange q := by
  unfold SecretService.getRandomDifferentNumbers at h
  split at h
  · exact absurd h (by simp)
  · rcases hl : grdnLoop amount draws [] with _ | result
    · rw [hl] at h
      exact absurd h (by simp)
    · rw [hl] at h
      simp only [Except.ok.injEq] at h
      subst h
      exact grdnLoop_ok_props amount draws [] result hl List.nodup_nil (by simp)

/-- A successful share-building loop returns one share per coordinate, with
the coordinates as first components, in order. -/
theorem evalShares_ok_map_fst (p : Polynomial) :
    ∀ (xs : List ℤ) (out : List (ℤ × ℤ)), evalShares p xs = .ok out →
      out.map Prod.fst = xs := by
  intro xs
  induction xs with
  | nil =>
    intro out h
    rw [evalShares] at h
    simp only [Except.ok.injEq] at h
    subst h
    rfl
  | cons x xs ih =>
    intro out h
    rw [evalShares] at h
    rcases hev : p.evaluate_at x with ee | y
    · rw [hev] at h
      exact absurd h (by simp)
    · rw [hev] at h
      rcases hrest : evalShares p xs with ee | rest
      · rw [hrest] at h
        exact absurd h (by simp)
      · rw [hrest] at h
        simp only [Except.ok.injEq] at h
        subst h
        simp [ih rest hrest]

/-- C5: whenever `secretPartition` succeeds it returns exactly `partyCount`
shares whose `x` coordinates are pairwise distinct and all nonzero (they are
drawn from `1..=254` with an explicit containment check before each push). -/
theorem secretPartition_shares_distinct (degree : ℕ) (secret : String) (parties : ℕ)
    (draws : List ℕ) (coeffDraws : ℕ → ℕ) (shares : List (ℤ × ℤ))
    (h : SecretService.secretPartition degree secret parties draws coeffDraws = .ok shares) :
    shares.length = parties ∧ (shares.map Prod.fst).Nodup ∧
      ∀ xy ∈ shares, xy.1 ≠ 0 := by
  unfold SecretService.secretPartition at h
  rcases hnew : ShamirAlgorithm.new (some degree) with e | shamir
  · rw [hnew] at h
    exact absurd h (by simp)
  · rw [hnew] at h
    rcases hg : SecretService.getRandomDifferentNumbers parties draws with e | rand_nums
    · rw [hg] at h
      exact absurd h (by simp)
    · rw [hg] at h
      rcases hs : parseSecretHex secret with e | sv
      · rw [hs] at h
        exact absurd h (by simp)
      · rw [hs] at h
        obtain ⟨hlen, hnd, hrange⟩ :=
          getRandomDifferentNumbers_ok_props parties draws rand_nums hg
        have hfst := evalShares_ok_map_fst _ rand_nums shares h
        refine ⟨?_, ?_, ?_⟩
        · have := congrArg List.length hfst
          simpa [hlen] using this
        · rw [hfst]
          exact hnd
        · intro xy hxy
          have : xy.1 ∈ rand_nums := by
            rw [← hfst]
            exact List.mem_map_of_mem Prod.fst hxy
          obtain ⟨k, hk1, _, hkq⟩ := hrange xy.1 this
          rw [hkq]
          exact_mod_cast (show k ≠ 0 by omega)

/-- Witness for C5's theorem: a concrete successful split (secret `0xff`,
degree 2, three parties; the draw list repeats a value to exercise the
containment check). -/
theorem secretPartition_shares_distinct_witness :
    [((6 : ℤ), (327 : ℤ)), (8, 383), (1, 257)].length = 3 ∧
      ([((6 : ℤ), (327 : ℤ)), (8, 383), (1, 257)].map Prod.fst).Nodup ∧
      ∀ xy ∈ [((6 : ℤ), (327 : ℤ)), (8, 383), (1, 257)], xy.1 ≠ 0 :=
  secretPartition_shares_distinct 2 "ff" 3 [5, 5, 7, 0] (fun i => 2 * i)
    [(6, 327), (8, 383), (1, 257)] (by decide)

/-- A nodup list of coordinates drawn from `[1, 254]` has at most 254
elements. -/
theorem inDrawRange_length_le (acc : List ℤ) (hnd : acc.Nodup)
    (hrange : ∀ q ∈ acc, inDrawRange q) : acc.length ≤ 254 := by
  have hsub : acc.toFinset ⊆ (Finset.Icc 1 254).image (fun k : ℕ => (k : ℤ)) := by
    intro q hq
    obtain ⟨k, h1, h2, h3⟩ := hrange q (List.mem_toFinset.mp hq)
    exact Finset.mem_image.mpr ⟨k, Finset.mem_Icc.mpr ⟨h1, h2⟩, h3.symm⟩
  calc acc.length = acc.toFinset.card := (List.toFinset_card_of_nodup hnd).symm
    _ ≤ ((Finset.Icc 1 254).image (fun k : ℕ => (k : ℤ))).card := Finset.card_le_card hsub
    _ ≤ (Finset.Icc (1 : ℕ) 254).card := Finset.card_image_le
    _ = 254 := by rw [Nat.card_Icc]

/-- Asked for 255 distinct coordinates, the selection loop can never finish:
every accumulator it can reach is a nodup subset of the 254-element draw
range, so its length never reaches 255, whatever draws are supplied. -/
theorem grdnLoop_255_none :
    ∀ (ds : List ℕ) (acc : List ℤ), acc.Nodup → (∀ q ∈ acc, inDrawRange q) →
      grdnLoop 255 ds acc = none := by
  intro ds
  induction ds with
  | nil =>
    intro acc hnd hrange
    rw [grdnLoop]
    rw [if_neg]
    have := inDrawRange_length_le acc hnd hrange
    omega
  | cons d rest ih =>
    intro acc hnd hrange
    rw [grdnLoop]
    rw [if_neg (by have := inDrawRange_length_le acc hnd hrange; omega)]
    by_cases hmem : drawVal d ∈ acc
    · rw [if_pos (show ((1 + d % 254 : ℕ) : ℤ) ∈ acc from hmem)]
      exact ih acc hnd hrange
    · rw [if_neg (show ¬ ((1 + d % 254 : ℕ) : ℤ) ∈ acc from hmem)]
      refine ih _ ?_ ?_
      · rw [List.nodup_append]
        refine ⟨hnd, List.nodup_singleton _, ?_⟩
        intro a ha hb
        simp only [List.mem_singleton] at hb
        exact hmem (show ((1 + d % 254 : ℕ) : ℤ) ∈ acc from hb ▸ ha)
      · intro q hq
        rcases List.mem_append.mp hq with hq | hq
        · exact hrange q hq
        · simp only [List.mem_singleton] at hq
          exact hq ▸ drawVal_inDrawRange d

/-- When the remaining draws are fresh (no repetition among themselves or
with the accumulator) and exactly fill the requested amount, the selection
loop finishes and returns the accumulated coordinates. -/
theorem grdnLoop_completes (amount : ℕ) :
    ∀ (ds : List ℕ) (acc : List ℤ), (acc ++ ds.map drawVal).Nodup →
      acc.length + ds.length = amount →
      grdnLoop amount ds acc = some (acc ++ ds.map drawVal) := by
  intro ds
  induction ds with
  | nil =>
    intro acc _ hlen
    rw [grdnLoop]
    simp only [List.length_nil, Nat.add_zero] at hlen
    simp [hlen]
  | cons d rest ih =>
    intro acc hnd hlen
    rw [grdnLoop]
    rw [if_neg (by simp at hlen; omega)]
    have hmem : drawVal d ∉ acc := by
      intro hin
      have hdisj := (List.nodup_append.mp hnd).2.2
      exact hdisj hin (by simp [List.map_cons])
    rw [if_neg (show ¬ ((1 + d % 254 : ℕ) : ℤ) ∈ acc from hmem)]
    have hnd2 : ((acc ++ [drawVal d]) ++ rest.map drawVal).Nodup := by
      rw [List.append_assoc]
      simpa [List.map_cons] using hnd
    have := ih (acc ++ [drawVal d]) hnd2 (by simp at hlen ⊢; omega)
    rw [show ((1 + d % 254 : ℕ) : ℤ) = drawVal d from rfl, this]
    simp [List.map_cons, List.append_assoc]

/-- With `3 ≤ amount`, `getRandomDifferentNumbers 255` always reports the
selection loop as non-finishing. -/
theorem getRandomDifferentNumbers_255 (draws : List ℕ) :
    SecretService.getRandomDifferentNumbers 255 draws = .error Err.noTermination := by
  unfold SecretService.getRandomDifferentNumbers
  rw [if_neg (by omega)]
  rw [grdnLoop_255_none draws [] List.nodup_nil (by simp)]

/-- The `drawVal` images of `0, ..., amount - 1` are pairwise distinct when
`amount ≤ 254`. -/
theorem drawVal_range_nodup (amount : ℕ) (h : amount ≤ 254) :
    ((List.range amount).map drawVal).Nodup := by
  refine List.Nodup.map_on ?_ (List.nodup_range amount)
  intro i hi j hj hij
  have hi2 : i < amount := List.mem_range.mp hi
  have hj2 : j < amount := List.mem_range.mp hj
  unfold drawVal at hij
  have hi3 : i % 254 = i := Nat.mod_eq_of_lt (by omega)
  have hj3 : j % 254 = j := Nat.mod_eq_of_lt (by omega)
  rw [hi3, hj3] at hij
  have := Int.ofNat.inj hij
  omega

/-- C10: the coordinate pool of `getRandomDifferentNumbers` is the
254-element range `1..=254`.  For every `amount` with `3 ≤ amount ≤ 254` the
selection loop can finish (witnessed by a draw sequence, e.g. the raw draws
`0, ..., amount - 1`; over the uniform generator it finishes with
probability 1), while with `amount = 255` — hence for `secretPartition`
called with `partyCount = 255` — no draw sequence whatsoever lets it finish:
255 pairwise-distinct values cannot be drawn from a 254-element range. -/
theorem getRandomDifferentNumbers_termination_bound :
    (∀ amount : ℕ, 3 ≤ amount → amount ≤ 254 →
      ∃ (draws : List ℕ) (out : List ℤ),
        SecretService.getRandomDifferentNumbers amount draws = .ok out ∧
          out.length = amount) ∧
    (∀ draws : List ℕ,
      SecretService.getRandomDifferentNumbers 255 draws = .error Err.noTermination) ∧
    (∀ (degree : ℕ) (secret : String) (draws : List ℕ) (coeffDraws : ℕ → ℕ),
      2 ≤ degree →
        SecretService.secretPartition degree secret 255 draws coeffDraws =
          .error Err.noTermination) := by
  refine ⟨?_, getRandomDifferentNumbers_255, ?_⟩
  · intro amount h3 h254
    refine ⟨List.range amount, (List.range amount).map drawVal, ?_, by simp⟩
    unfold SecretService.getRandomDifferentNumbers
    rw [if_neg (by omega)]
    rw [grdnLoop_completes amount (List.range amount) []
      (by simpa using drawVal_range_nodup amount h254) (by simp)]
    simp
  · intro degree secret draws coeffDraws hd
    unfold SecretService.secretPartition
    rw [shamir_new_ok degree hd, getRandomDifferentNumbers_255 draws]

/-- Witness for C10's theorem: `amount = 3` completes for some draws;
`amount = 255` (and a split with 255 parties) never does. -/
theorem getRandomDifferentNumbers_termination_bound_witness :
    (∃ (draws : List ℕ) (out : List ℤ),
      SecretService.getRandomDifferentNumbers 3 draws = .ok out ∧ out.length = 3) ∧
    SecretService.getRandomDifferentNumbers 255 [] = .error Err.noTermination ∧
    SecretService.secretPartition 2 "2a" 255 [] (fun i => i) = .error Err.noTermination :=
  ⟨getRandomDifferentNumbers_termination_bound.1 3 (by decide) (by decide),
   getRandomDifferentNumbers_termination_bound.2.1 [],
   getRandomDifferentNumbers_termination_bound.2.2 2 "2a" [] (fun i => i) (by decide)⟩

/-- C6: `evaluate_at` is not exact on negative inputs: it routes every
operand through the unsigned 256-bit parser
`U256::from_str_radix(v.to_string(), 10).unwrap()`, which panics on the `-`
sign (and on any operand of `2^256` or more).  The repository's own test
`test_evaluate_at_negative` expects `P = [-1, 2, -3, 4]` at `v = -5` to give
`-586`; the code panics there instead: a code bug (the spec's "exact integer
exponentiation ... for large keys" is the evident intent). -/
theorem evaluate_at_negative_panics :
    (Polynomial.new [-1, 2, -3, 4] 'x').evaluate_at (-5) = .error Err.u256Parse := by
  decide

/-- Every element of `enumFrom n l` has index at least `n` and value in `l`. -/
theorem mem_enumFrom_bounds (dc : ℕ × ℤ) :
    ∀ (l : List ℤ) (n : ℕ), dc ∈ l.enumFrom n → n ≤ dc.1 ∧ dc.2 ∈ l := by
  intro l
  induction l with
  | nil => intro n h; simp at h
  | cons c cs ih =>
    intro n h
    rw [List.enumFrom_cons] at h
    rcases List.mem_cons.mp h with h | h
    · rw [h]
      exact ⟨Nat.le_refl n, List.mem_cons_self c cs⟩
    · obtain ⟨h1, h2⟩ := ih (n + 1) h
      exact ⟨by omega, List.mem_cons_of_mem c h2⟩

/-- At determinate `0`, every term of degree `≥ 1` parses to `0 ^ degree = 0`
and contributes nothing, so the tail of the evaluation loop preserves the
accumulated sum (given coefficients the `U256` parser accepts). -/
theorem evalGo_zero_tail :
    ∀ (l : List (ℕ × ℤ)) (s : ℤ),
      (∀ dc ∈ l, 1 ≤ dc.1 ∧ 0 ≤ dc.2 ∧ dc.2 < 2 ^ 256) →
      evalGo 0 l s = .ok s := by
  intro l
  induction l with
  | nil => intro s _; rw [evalGo]
  | cons dc rest ih =>
    intro s hb
    obtain ⟨deg, c⟩ := dc
    obtain ⟨hdeg, hc0, hc1⟩ := hb (deg, c) (List.mem_cons_self _ _)
    rw [evalGo]
    rw [show u256OfBD 0 = .ok 0 by decide]
    rw [show u256OfBD c = .ok c.toNat from by rw [u256OfBD, if_pos ⟨hc0, hc1⟩]]
    dsimp only
    rw [if_neg (by rw [Nat.zero_pow (by omega : 0 < deg)]; omega)]
    rw [if_neg (by rw [Nat.zero_pow (by omega : 0 < deg)]; simp)]
    rw [Nat.zero_pow (by omega : 0 < deg)]
    simpa using ih s (fun dc hdc => hb dc (List.mem_cons_of_mem _ hdc))

/-- C7 counterexample: the claim quantifies over every polynomial, but
evaluating the constant polynomial `[-1]` at `0` panics in the unsigned
`U256` parse of the coefficient `-1` instead of returning `-1`. -/
theorem evaluate_at_zero_counterexample :
    (Polynomial.new [-1] 'x').evaluate_at 0 = .error Err.u256Parse := by
  decide

/-- C7 amended: for every polynomial all of whose coefficients are
nonnegative and below `2 ^ 256` (so that the `U256` parses succeed —
including the canonical zero polynomial obtained from an empty or all-zero
coefficient list), evaluation at `0` returns exactly the constant term
`coefficients[0]`: the degree-0 term contributes `0^0 * c0 = c0` and every
later term contributes `0 ^ degree = 0`. -/
theorem evaluate_at_zero_head (p : Polynomial)
    (hc : ∀ c ∈ p.coefficients, 0 ≤ c ∧ c < 2 ^ 256) :
    p.evaluate_at 0 = .ok p.coefficients.headI := by
  unfold Polynomial.evaluate_at
  rcases hcs : p.coefficients with _ | ⟨c0, rest⟩
  · rw [show (List.nil : List ℤ).enum = [] from rfl, evalGo]
    rfl
  · obtain ⟨hc00, hc01⟩ := hc c0 (by rw [hcs]; exact List.mem_cons_self _ _)
    rw [List.enum_cons]
    rw [evalGo]
    rw [show u256OfBD 0 = .ok 0 by decide]
    rw [show u256OfBD c0 = .ok c0.toNat from by rw [u256OfBD, if_pos ⟨hc00, hc01⟩]]
    dsimp only
    rw [if_neg (by rw [pow_zero]; omega)]
    rw [if_neg (by rw [pow_zero]; omega)]
    rw [evalGo_zero_tail (rest.enumFrom 1) _ ?_]
    · congr 1
      rw [pow_zero, one_mul, Int.toNat_of_nonneg hc00]
      simp
    · intro dc hdc
      obtain ⟨h1, h2⟩ := mem_enumFrom_bounds dc rest 1 hdc
      have := hc dc.2 (by rw [hcs]; exact List.mem_cons_of_mem c0 h2)
      exact ⟨h1, this.1, this.2⟩

/-- Witness for C7's amended theorem: `new [7, 0, 5]` evaluated at `0`
returns its constant term `7`. -/
theorem evaluate_at_zero_head_witness :
    (Polynomial.new [7, 0, 5] 'x').evaluate_at 0 =
      .ok (Polynomial.new [7, 0, 5] 'x').coefficients.headI :=
  evaluate_at_zero_head (Polynomial.new [7, 0, 5] 'x') (by decide)

/-- `strip_from_end` either empties the list or leaves a list whose final
element differs from the stripped object. -/
theorem strip_from_end_spec (a : ℤ) :
    ∀ l : List ℤ, Polynomial.strip_from_end l a = [] ∨
      ∃ b t, Polynomial.strip_from_end l a = t ++ [b] ∧ b ≠ a := by
  intro l
  induction l using List.reverseRecOn with
  | nil => left; rfl
  | append_singleton l b ih =>
    by_cases hb : b = a
    · have htw : List.takeWhile (fun x => decide (x = a)) ((l ++ [b]).reverse)
          = b :: List.takeWhile (fun x => decide (x = a)) l.reverse := by
        rw [List.reverse_append, List.reverse_singleton, List.singleton_append]
        exact List.takeWhile_cons_of_pos (by simp [hb])
      have hk : (List.takeWhile (fun x => decide (x = a)) l.reverse).length ≤ l.length := by
        have h2 := congrArg List.length
          (List.takeWhile_append_dropWhile (p := fun x => decide (x = a)) (l := l.reverse))
        simp only [List.length_append, List.length_reverse] at h2
        omega
      have heq : Polynomial.strip_from_end (l ++ [b]) a = Polynomial.strip_from_end l a := by
        unfold Polynomial.strip_from_end
        rw [htw]
        have hlen2 : (l ++ [b]).length = l.length + 1 := by simp
        rw [hlen2, List.length_cons]
        rw [show l.length + 1 - ((List.takeWhile (fun x => decide (x = a)) l.reverse).length + 1)
            = l.length - (List.takeWhile (fun x => decide (x = a)) l.reverse).length by omega]
        exact List.take_append_of_le_length (by omega)
      rw [heq]
      exact ih
    · right
      refine ⟨b, l, ?_, hb⟩
      have htw : List.takeWhile (fun x => decide (x = a)) ((l ++ [b]).reverse) = [] := by
        rw [List.reverse_append, List.reverse_singleton, List.singleton_append]
        exact List.takeWhile_cons_of_neg (by simp [hb])
      unfold Polynomial.strip_from_end
      rw [htw]
      simp only [List.length_nil, Nat.sub_zero]
      exact List.take_of_length_le (Nat.le_refl _)

/-- C8: normalization invariant of `Polynomial::new` (and hence of `add`,
`sub` and `multiply`, which all return through `new`): the result either is
the canonical zero polynomial `[0]`, reported as degree `-1`, or carries no
trailing zero coefficient; concretely, `new [1,2,0,3,0]` keeps `[1,2,0,3]`
with degree `3`, and the empty and all-zero coefficient lists both collapse
to the canonical zero polynomial. -/
theorem polynomial_new_normalization :
    (∀ (cs : List ℤ) (ind : Char),
      ((Polynomial.new cs ind).coefficients = [0] ∧ (Polynomial.new cs ind).degree = -1) ∨
        (Polynomial.new cs ind).coefficients.getLast? ≠ some 0) ∧
    (Polynomial.new [1, 2, 0, 3, 0] 'x').coefficients = [1, 2, 0, 3] ∧
    (Polynomial.new [1, 2, 0, 3, 0] 'x').degree = 3 ∧
    (Polynomial.new [] 'x').coefficients = [0] ∧
    (Polynomial.new [0, 0, 0] 'x').coefficients = [0] ∧
    (Polynomial.new [0, 0, 0] 'x').degree = -1 := by
  refine ⟨?_, by decide, by decide, by decide, by decide, by decide⟩
  intro cs ind
  rcases strip_from_end_spec 0 cs with h | ⟨b, t, h, hb⟩
  · left
    constructor
    · simp [Polynomial.new, h]
    · simp [Polynomial.new, h, Polynomial.degree]
  · right
    have hcoeff : (Polynomial.new cs ind).coefficients = t ++ [b] := by
      simp [Polynomial.new, h]
    rw [hcoeff, List.getLast?_concat]
    intro hcontra
    exact hb (Option.some.inj hcontra)

/-- Concatenation of a list of rendered term strings. -/
def strConcat : List String → String
  | [] => ""
  | s :: rest => s ++ strConcat rest

/-- Declarative description of one rendered term of `as_string`: a term of
degree `≥ 2` with coefficient `0` is omitted; the degree-0 term renders as
the bare coefficient; every other term — including a degree-1 term with
coefficient `0` — renders as ` + <coeff><ind>` with a `^<degree>` suffix
from degree 2 on. -/
def termStringSpec (ind : Char) (dc : ℕ × ℤ) : String :=
  if 2 ≤ dc.1 ∧ dc.2 = 0 then ""
  else if dc.1 = 0 then bdStr dc.2
  else " + " ++ bdStr dc.2 ++ ind.toString ++
    (if dc.1 = 1 then "" else "^" ++ toString dc.1)

/-- The declarative rendering: prefix plus the concatenation of the
per-term strings. -/
def Polynomial.as_string_spec (p : Polynomial) : String :=
  "f(" ++ p.indeterminate.toString ++ ") = " ++
    strConcat (p.coefficients.enum.map (termStringSpec p.indeterminate))

/-- For degrees `≥ 1` one step of the rendering loop appends exactly the
declarative term string. -/
theorem termPiece_eq_spec (ind : Char) (s : String) (n : ℕ) (c : ℤ) (hn : 1 ≤ n) :
    termPiece ind s (n, c) = s ++ termStringSpec ind (n, c) := by
  unfold termPiece termStringSpec
  by_cases h1 : n = 1
  · subst h1
    simp [String.append_assoc]
  · have h0 : ¬ n = 0 := by omega
    have h2 : 2 ≤ n := by omega
    by_cases hc : c = 0
    · simp [h0, h1, h2, hc]
    · simp [h0, h1, h2, hc, String.append_assoc]

/-- The rendering loop over the positive-degree tail accumulates the
concatenation of the declarative term strings. -/
theorem foldl_termPiece_enumFrom (ind : Char) :
    ∀ (cs : List ℤ) (n : ℕ) (s : String), 1 ≤ n →
      (cs.enumFrom n).foldl (termPiece ind) s
        = s ++ strConcat ((cs.enumFrom n).map (termStringSpec ind)) := by
  intro cs
  induction cs with
  | nil => intro n s _; simp [strConcat]
  | cons c cs ih =>
    intro n s hn
    rw [List.enumFrom_cons, List.foldl_cons, List.map_cons]
    rw [ih (n + 1) _ (by omega)]
    rw [show strConcat (termStringSpec ind (n, c) ::
        ((cs.enumFrom (n + 1)).map (termStringSpec ind)))
      = termStringSpec ind (n, c) ++
        strConcat ((cs.enumFrom (n + 1)).map (termStringSpec ind)) from rfl]
    rw [← String.append_assoc]
    rw [termPiece_eq_spec ind s n c hn]

/-- C9 amended: `as_string` renders `f(<ind>) = <terms>` where the constant
term is always shown, a term of degree `≥ 2` is omitted exactly when its
coefficient is zero, and — contrary to the claim — the degree-1 term is
always rendered, zero coefficient or not (the source's zero test is placed
after the `degree == 1` branch). -/
theorem as_string_eq_spec (p : Polynomial) : p.as_string = p.as_string_spec := by
  unfold Polynomial.as_string Polynomial.as_string_spec
  congr 1
  rcases p.coefficients with _ | ⟨c0, rest⟩
  · rfl
  · rw [List.enum_cons, List.foldl_cons, List.map_cons]
    rw [foldl_termPiece_enumFrom p.indeterminate rest 1 _ (by omega)]
    rw [show termPiece p.indeterminate "" (0, c0) = bdStr c0 from by simp [termPiece]]
    rw [show termStringSpec p.indeterminate (0, c0) = bdStr c0 from by
      simp [termStringSpec]]
    rfl

/-- C9 counterexample: the claim says every zero term of degree `≥ 1` is
omitted, but `new [1, 0, 3]` renders its zero degree-1 term: the output is
`f(x) = 1 + 0x + 3x^2`, not `f(x) = 1 + 3x^2`. -/
theorem as_string_zero_linear_counterexample :
    (Polynomial.new [1, 0, 3] 'x').as_string = "f(x) = 1 + 0x + 3x^2" := by
  decide

end RustMpc
